import Mathlib

/-!
Verification of the invoice-processor pipeline: a shallow embedding of the
vendor-registry reconciliation (`config.py`), the filename sanitizer
(`utils.py`), filename synthesis (`models.py`), the per-document and batch
processing flow (`processor.py`), and the mutex-guarded registry
read-modify-write cycle (`processor.py` together with `ai_context.py`).

Python strings are modelled as lists of Unicode code points (`List Nat`).
Case operations (`str.lower`, `str.title`) are modelled on the ASCII range,
which is the range exercised by the registry and filename logic.
-/

namespace InvoiceProc

/-- A Python string, as its list of code points. -/
abbrev PyStr := List Nat

/-- Code points of a Lean string literal, for concrete inputs. -/
def pyStr (s : String) : PyStr := s.data.map Char.toNat

/-- ASCII uppercase letter test (`'A'..'Z'`). -/
def isAsciiUpper (c : Nat) : Bool := 65 ≤ c && c ≤ 90

/-- ASCII lowercase letter test (`'a'..'z'`). -/
def isAsciiLower (c : Nat) : Bool := 97 ≤ c && c ≤ 122

/-- A cased character (letter), as used by Python's `str.title`. -/
def isCased (c : Nat) : Bool := isAsciiUpper c || isAsciiLower c

/-- Python `str.lower` on one character. -/
def lowerChar (c : Nat) : Nat := if isAsciiUpper c then c + 32 else c

/-- Python `str.upper` on one character. -/
def upperChar (c : Nat) : Nat := if isAsciiLower c then c - 32 else c

/-- Python `str.lower` on a whole string. -/
def lowerStr (s : PyStr) : PyStr := s.map lowerChar

/-- Characters replaced by the filler in `sanitize_filename_part`:
`'/'` (47), `'\\'` (92), `' '` (32). -/
def sepChar (c : Nat) : Bool := c == 47 || c == 92 || c == 32

/-- The replacement `part.replace("/", "_").replace("\\", "_").replace(" ", "_")`:
each separator or space becomes `'_'` (95). -/
def replaceSep (c : Nat) : Nat := if sepChar c then 95 else c

/-- Membership in `set('<>:"|?*')`: 60 62 58 34 124 63 42. -/
def invalidChar (c : Nat) : Bool :=
  c == 60 || c == 62 || c == 58 || c == 34 || c == 124 || c == 63 || c == 42

/-- Characters stripped from both ends by `.strip('._ ')`:
`'.'` (46), `'_'` (95), `' '` (32). -/
def stripChar (c : Nat) : Bool := c == 46 || c == 95 || c == 32

/-- Python `s.strip(chars)` for a character predicate: drop matching
characters from both ends. -/
def stripEnds (p : Nat → Bool) (s : PyStr) : PyStr :=
  List.rdropWhile p (s.dropWhile p)

/-- Source `utils.sanitize_filename_part`: replace `/ \ ` (space) with `_`,
remove `<>:"|?*`, then `.strip('._ ')`. -/
def sanitize_filename_part (s : PyStr) : PyStr :=
  stripEnds stripChar ((s.map replaceSep).filter (fun c => !invalidChar c))

/-- Python `str.title`, one pass: the flag records whether the previous
character was cased; a cased character after an uncased one (or at the
start) is uppercased, a cased character after a cased one is lowercased. -/
def titleAux : Bool → PyStr → PyStr
  | _, [] => []
  | prevCased, c :: rest =>
    (if isCased c then (if prevCased then lowerChar c else upperChar c) else c)
      :: titleAux (isCased c) rest

/-- Python `str.title`. -/
def pyTitle (s : PyStr) : PyStr := titleAux false s

/-- The step `.replace('_', ' ')` applied to the sanitized name. -/
def underscoresToSpaces (s : PyStr) : PyStr :=
  s.map (fun c => if c = 95 then 32 else c)

/-- The canonical-key derivation of `config.py`:
`sanitize_filename_part(name).replace('_', ' ').title()`. -/
def canonicalKey (n : PyStr) : PyStr :=
  pyTitle (underscoresToSpaces (sanitize_filename_part n))

/-- One entry of the `vendors:` list: `{name: ..., aliases: [...]}`. -/
structure VendorRecord where
  name : PyStr
  aliases : List PyStr
deriving DecidableEq, Repr

/-- The vendor registry: the ordered `vendors` list. -/
abbrev Registry := List VendorRecord

/-- Source `config.find_vendor_by_name`: first record whose `name` equals the
canonical key derived from `normalized_name`. -/
def find_vendor_by_name (reg : Registry) (normalized_name : PyStr) : Option VendorRecord :=
  reg.find? (fun r => r.name = canonicalKey normalized_name)

/-- Body of `config.add_or_update_vendor_alias`, recursing to the first
record whose `name` equals `key` (the first match is the one Python's
`find_vendor_by_name` returns and mutates in place); if none exists a new
record is appended at the end of the list. -/
def addAliasAux (raw key : PyStr) : Registry → Registry × Bool
  | [] =>
    ([{ name := key,
        aliases := if lowerStr raw = lowerStr key then [] else [raw] }], true)
  | r :: rest =>
    if r.name = key then
      if lowerStr raw ∉ r.aliases.map lowerStr ∧ lowerStr raw ≠ lowerStr key then
        ({ r with aliases := r.aliases ++ [raw] } :: rest, true)
      else (r :: rest, false)
    else
      let p := addAliasAux raw key rest
      (r :: p.1, p.2)

/-- Source `config.add_or_update_vendor_alias(vendors_data, raw_name,
normalized_name) -> (updated, was_modified)`. -/
def add_or_update_vendor_alias (reg : Registry) (raw normalized : PyStr) : Registry × Bool :=
  addAliasAux raw (canonicalKey normalized) reg

/-- Decimal digits of a natural number, most significant first
(fuel-based structural recursion; fuel `n + 1` always suffices). -/
def digitsAux : Nat → Nat → List Nat
  | 0, _ => []
  | fuel + 1, n =>
    if n < 10 then [48 + n] else digitsAux fuel (n / 10) ++ [48 + n % 10]

/-- Decimal representation of a natural number (code points). -/
def natToDigits (n : Nat) : List Nat := digitsAux (n + 1) n

/-- Zero-padded decimal representation of width `w`, as used by
`strftime("%Y%m%d")`. -/
def padDigits (w n : Nat) : List Nat :=
  List.replicate (w - (natToDigits n).length) 48 ++ natToDigits n

/-- Decimal representation of a Python `int` (code points). -/
def intToDigits (i : Int) : List Nat :=
  if i < 0 then 45 :: natToDigits i.natAbs else natToDigits i.natAbs

/-- A calendar date, as `datetime.date`. -/
structure PyDate where
  year : Nat
  month : Nat
  day : Nat
deriving DecidableEq, Repr

/-- Formatting `invoice_date.strftime("%Y%m%d")`. -/
def fmtYmd (d : PyDate) : PyStr :=
  padDigits 4 d.year ++ padDigits 2 d.month ++ padDigits 2 d.day

/-- The value `100 * q` rounded to the nearest integer, ties to even, as `"%.2f"`
formatting rounds the scaled value.  Monetary amounts are modelled as
rationals; the computation uses the numerator and (positive) denominator
directly, with `/` and `%` the floor-compatible integer operations. -/
def scaledRound2 (q : ℚ) : ℤ :=
  let n := q.num * 100
  let d : ℤ := (q.den : ℤ)
  let f := n / d
  let r := n % d
  if 2 * r < d then f
  else if d < 2 * r then f + 1
  else if f % 2 = 0 then f else f + 1

/-- Python `f"{x:.2f}"` on a (rational-modelled) amount. -/
def fmt2 (q : ℚ) : PyStr :=
  let n := scaledRound2 q
  (if n < 0 then [45] else [])
    ++ natToDigits (n.natAbs / 100) ++ [46] ++ padDigits 2 (n.natAbs % 100)

/-- Source `models.InvoiceDetails`, the structured extraction result. -/
structure InvoiceDetails where
  vendor : PyStr
  invoice_date : PyDate
  item_count : Int
  item_category : PyStr
  total_amount : ℚ
  total_vat : ℚ
deriving DecidableEq

/-- Source `models.RawVendor`, the verbatim-vendor extraction result. -/
structure RawVendor where
  verbatim_vendor_name : PyStr
deriving DecidableEq

/-- Source `models.InvoiceDetails.to_filename`:
`f"{safe_vendor}-{date}-{item_count}-{safe_category}-{amount:.2f}-{vat:.2f}.pdf"`
with vendor and category passed through `sanitize_filename_part`. -/
def InvoiceDetails.to_filename (d : InvoiceDetails) : PyStr :=
  sanitize_filename_part d.vendor ++ [45] ++ fmtYmd d.invoice_date ++ [45]
    ++ intToDigits d.item_count ++ [45]
    ++ sanitize_filename_part d.item_category ++ [45]
    ++ fmt2 d.total_amount ++ [45] ++ fmt2 d.total_vat ++ pyStr ".pdf"

/-- The per-document environment: outcomes of the external collaborators.
`extraction` is the text-extraction call (`none` models a raised
extraction error, which `_extract_pdf_text` catches and turns into `""`);
a `none` inference result models a falsy payload or an exception raised by
that inference call; `placementFails` models an exception raised by the
move/copy. -/
structure DocEnv where
  extraction : Option PyStr
  normalizedResult : Option InvoiceDetails
  rawResult : Option RawVendor
  placementFails : Bool
deriving DecidableEq

/-- Source `_extract_pdf_text`: the extracted text, with any extraction error
(`extraction = none`) caught and replaced by the empty string. -/
def extractedText (env : DocEnv) : PyStr :=
  match env.extraction with
  | some t => t
  | none => []

/-- Observable side effects of one `process_single_invoice` run:
how many inference calls were issued, the `(raw_name, normalized_name)`
argument pairs passed to `_update_vendor_config` in order, and the
filenames placed into the output directory. -/
structure Effects where
  inferenceCalls : Nat
  reconcileArgs : List (PyStr × PyStr)
  placements : List PyStr
deriving DecidableEq

/-- Source `processor.InvoiceProcessor.process_single_invoice`, as a function of
the vendor override and the document environment, returning the result
(`Some filename` or `None`) and the effect trace.  Mirrors the source:
empty text returns early; both inference results must be present; with an
override the AI-detected vendor, and the verbatim vendor when it differs
from the AI-detected one, are passed to `_update_vendor_config` with the
override as normalized name and the filename is synthesized from the
overridden details; any exception (modelled: placement failure) is caught
and yields `None`. -/
def process_single_invoice (ov : Option PyStr) (env : DocEnv) :
    Option PyStr × Effects :=
  let text := extractedText env
  if text = [] then (none, ⟨0, [], []⟩)
  else
    match env.normalizedResult, env.rawResult with
    | some nres, some rres =>
      let ops : List (PyStr × PyStr) :=
        match ov with
        | some o =>
          (nres.vendor, o) ::
            (if rres.verbatim_vendor_name ≠ nres.vendor
             then [(rres.verbatim_vendor_name, o)] else [])
        | none => [(rres.verbatim_vendor_name, nres.vendor)]
      let effVendor := match ov with | some o => o | none => nres.vendor
      let fn := InvoiceDetails.to_filename { nres with vendor := effVendor }
      if env.placementFails then (none, ⟨2, ops, []⟩)
      else (some fn, ⟨2, ops, [fn]⟩)
    | _, _ => (none, ⟨2, [], []⟩)

/-- Source `processor.InvoiceProcessor.process_multiple_invoices`: one result per
input, in input order (`asyncio.gather` keeps task order; every task's
exceptions are caught inside `process_single_invoice`). -/
def process_multiple_invoices (ov : Option PyStr) (envs : List DocEnv) :
    List (Option PyStr) :=
  envs.map (fun e => (process_single_invoice ov e).1)

/-- Folding the reconciler over an effect trace's argument pairs: the net
registry transformation performed by a run's `_update_vendor_config`
calls. -/
def applyReconcileArgs (ops : List (PyStr × PyStr)) (reg : Registry) : Registry :=
  ops.foldl (fun r p => (add_or_update_vendor_alias r p.1 p.2).1) reg

/-- Position of one document in its registry read-modify-write cycle
(`_update_vendor_config`): not yet entered, holding the lock before the
load, holding the lock with the registry loaded, finished. -/
inductive DocPc
  | idle
  | locked
  | loaded
  | done
deriving DecidableEq, Repr

/-- Per-document state in the concurrency model: program position and the
registry snapshot read under the lock. -/
structure DocState where
  pc : DocPc
  localReg : Registry
deriving DecidableEq, Repr

/-- Shared system state: the persisted registry file, the holder of
`context.lock` (if held), and the per-document states. Document `i`
reconciles raw name `raws[i]` against the common normalized name. -/
structure SysState where
  disk : Registry
  lockHolder : Option Nat
  docs : List DocState
deriving DecidableEq, Repr

/-- Interleaving semantics of `_update_vendor_config` across documents.
`async with self.context.lock:` acquires the lock before the load and
releases it after the save, so `acquire` requires the lock to be free,
`load` copies the persisted registry into the document's snapshot, and
`saveRelease` persists the reconciled snapshot and releases the lock.
Steps of different documents may interleave arbitrarily subject to these
guards. -/
inductive SysStep (raws : List PyStr) (norm : PyStr) : SysState → SysState → Prop
  | acquire (i : Nat) (d : DocState) (s : SysState) :
      s.docs[i]? = some d → d.pc = .idle → s.lockHolder = none →
      SysStep raws norm s
        ⟨s.disk, some i, s.docs.set i ⟨.locked, d.localReg⟩⟩
  | load (i : Nat) (d : DocState) (s : SysState) :
      s.docs[i]? = some d → d.pc = .locked →
      SysStep raws norm s
        ⟨s.disk, s.lockHolder, s.docs.set i ⟨.loaded, s.disk⟩⟩
  | saveRelease (i : Nat) (d : DocState) (r : PyStr) (s : SysState) :
      s.docs[i]? = some d → d.pc = .loaded → raws[i]? = some r →
      SysStep raws norm s
        ⟨(add_or_update_vendor_alias d.localReg r norm).1, none,
          s.docs.set i ⟨.done, d.localReg⟩⟩

/-- Initial state: registry file `reg0`, lock free, every document about
to enter its registry cycle. -/
def initState (raws : List PyStr) (reg0 : Registry) : SysState :=
  ⟨reg0, none, raws.map (fun _ => ⟨.idle, []⟩)⟩

/-- Reachability under interleaved document steps. -/
def SysReach (raws : List PyStr) (norm : PyStr) : SysState → SysState → Prop :=
  Relation.ReflTransGen (SysStep raws norm)

/-- The raw name `a` is recorded (case-insensitively) as an alias of the
record whose canonical name is `key`. -/
def aliasPresent (a key : PyStr) (reg : Registry) : Prop :=
  ∃ r ∈ reg, r.name = key ∧ lowerStr a ∈ r.aliases.map lowerStr

instance (a key : PyStr) (reg : Registry) : Decidable (aliasPresent a key reg) := by
  unfold aliasPresent
  infer_instance

/-- A document is inside its registry read-modify-write cycle. -/
def DocState.midCycle (d : DocState) : Prop := d.pc = .locked ∨ d.pc = .loaded

/-- Inductive invariant of the lock model: the document lists stay in
step with `raws`; every document inside its critical section is the lock
holder (so at most one is); a document that has loaded the registry holds
a snapshot equal to the persisted registry (no staleness — this is what
the mutex buys); and every finished document's alias is recorded in the
persisted registry. -/
def SysInv (raws : List PyStr) (norm : PyStr) (s : SysState) : Prop :=
  s.docs.length = raws.length ∧
  (∀ (i : Nat) (d : DocState), s.docs[i]? = some d → d.midCycle →
    s.lockHolder = some i) ∧
  (∀ (i : Nat) (d : DocState), s.docs[i]? = some d → d.pc = .loaded →
    d.localReg = s.disk) ∧
  (∀ (i : Nat) (d : DocState), s.docs[i]? = some d → d.pc = .done →
    ∀ r, raws[i]? = some r → lowerStr r ≠ lowerStr (canonicalKey norm) →
      aliasPresent r (canonicalKey norm) s.disk)

/-- A path separator character: `'/'` (47) or `'\\'` (92). -/
def pathSep (c : Nat) : Bool := c == 47 || c == 92

/-- Python whitespace characters (`str.strip()` default set, ASCII part):
space, tab, newline, carriage return, vertical tab, form feed. -/
def pyWhitespace (c : Nat) : Bool :=
  c == 32 || c == 9 || c == 10 || c == 13 || c == 11 || c == 12

/-- A character in the spec's illegal set `< > : " | ? *`. -/
def specIllegalChar (c : Nat) : Bool :=
  c == 60 || c == 62 || c == 58 || c == 34 || c == 124 || c == 63 || c == 42

/-- The sanitizer reference definition with the spec's trim step read
literally: replace each path separator and each space with a single filler
character, remove every illegal character, then trim all leading and
trailing separators, dots, and whitespace characters. -/
def specSanitizeWS (s : PyStr) : PyStr :=
  stripEnds (fun c => c == 95 || pathSep c || c == 46 || pyWhitespace c)
    ((s.map (fun c => if pathSep c || c == 32 then 95 else c)).filter
      (fun c => !specIllegalChar c))

/-- The sanitizer reference definition with the trim step narrowed to what
the code does: replace each path separator and each space with a single
filler character, remove every illegal character, then trim all leading
and trailing filler characters, dots, and space characters. -/
def refSanitize (s : PyStr) : PyStr :=
  stripEnds (fun c => c == 95 || c == 46 || c == 32)
    ((s.map (fun c => if pathSep c || c == 32 then 95 else c)).filter
      (fun c => !specIllegalChar c))

/-- All aliases recorded anywhere in the registry, lowercased. -/
def allAliasesLower (reg : Registry) : List PyStr :=
  (reg.map (fun r => r.aliases.map lowerStr)).flatten

/-- The `VendorRecord` invariants of the spec: every canonical name is in
canonical (sanitized and title-cased) form, no two records share a
canonical name case-insensitively, no alias case-insensitively equals its
own record's canonical name, and no alias appears (case-insensitively) in
two records or twice in one record. -/
def RegInv (reg : Registry) : Prop :=
  (∀ r ∈ reg, canonicalKey r.name = r.name) ∧
  (reg.map (fun r => lowerStr r.name)).Nodup ∧
  (∀ r ∈ reg, ∀ a ∈ r.aliases, lowerStr a ≠ lowerStr r.name) ∧
  (allAliasesLower reg).Nodup

instance (reg : Registry) : Decidable (RegInv reg) := by
  unfold RegInv
  infer_instance

/-- Predicate: `raw` is not recorded (case-insensitively) as an alias of any record
other than the one named `key`. -/
def crossFree (raw key : PyStr) (reg : Registry) : Prop :=
  ∀ r ∈ reg, r.name ≠ key → lowerStr raw ∉ r.aliases.map lowerStr

instance (raw key : PyStr) (reg : Registry) : Decidable (crossFree raw key reg) := by
  unfold crossFree
  infer_instance

/-- The record `add_or_update_vendor_alias` creates for an unknown
vendor: canonical name `key`, and `raw` as first alias when it differs
from the key case-insensitively. -/
def newVendorRecord (raw key : PyStr) : VendorRecord :=
  { name := key, aliases := if lowerStr raw = lowerStr key then [] else [raw] }

/-- A document environment in which `process_single_invoice` fails:
no text, a missing inference payload, or a placement error. -/
def docFails (env : DocEnv) : Prop :=
  extractedText env = [] ∨ env.normalizedResult = none ∨ env.rawResult = none ∨
    env.placementFails = true

instance (env : DocEnv) : Decidable (docFails env) := by
  unfold docFails
  infer_instance

example : canonicalKey (pyStr "Amazon") = pyStr "Amazon" := by decide
example : canonicalKey (pyStr "amazon  business/ eu") = pyStr "Amazon  Business  Eu" := by decide
example : sanitize_filename_part (pyStr " a<b>.pdf. ") = pyStr "ab.pdf" := by decide
example :
    add_or_update_vendor_alias [] (pyStr "Amazon EU Sarl") (pyStr "Amazon")
      = ([⟨pyStr "Amazon", [pyStr "Amazon EU Sarl"]⟩], true) := by decide

example :
    InvoiceDetails.to_filename
      ⟨pyStr "Amazon", ⟨2024, 3, 5⟩, 3, pyStr "books", mkRat 85 2, mkRat 21 10⟩
      = pyStr "Amazon-20240305-3-books-42.50-2.10.pdf" := by decide

/-! ### Sanitizer lemmas -/

theorem sepChar_replaceSep (c : Nat) : sepChar (replaceSep c) = false := by
  unfold replaceSep
  split
  · decide
  · rename_i h
    simpa using h

theorem replaceSep_eq_self {c : Nat} (h : sepChar c = false) : replaceSep c = c := by
  unfold replaceSep
  simp [h]

theorem stripEnds_sublist (p : Nat → Bool) (s : PyStr) : (stripEnds p s).Sublist s := by
  unfold stripEnds
  exact (( List.rdropWhile_prefix p _).sublist).trans (List.dropWhile_suffix p).sublist

theorem mem_stripEnds {p : Nat → Bool} {s : PyStr} {c : Nat} (h : c ∈ stripEnds p s) :
    c ∈ s :=
  (stripEnds_sublist p s).mem h

theorem mem_sanitize_props {s : PyStr} {c : Nat} (h : c ∈ sanitize_filename_part s) :
    sepChar c = false ∧ invalidChar c = false := by
  unfold sanitize_filename_part at h
  have h1 : c ∈ (s.map replaceSep).filter (fun c => !invalidChar c) := mem_stripEnds h
  rw [List.mem_filter] at h1
  obtain ⟨hmem, hfil⟩ := h1
  obtain ⟨c', _, rfl⟩ := List.mem_map.mp hmem
  exact ⟨sepChar_replaceSep c', by simpa using hfil⟩

theorem map_fix {f : Nat → Nat} {l : PyStr} (h : ∀ c ∈ l, f c = c) : l.map f = l := by
  induction l with
  | nil => rfl
  | cons a t ih =>
    simp only [List.map_cons, h a (List.mem_cons_self a t),
      ih fun c hc => h c (List.mem_cons_of_mem _ hc)]

theorem dropWhile_head_false (p : Nat → Bool) (a : Nat) (x : PyStr)
    (h : List.dropWhile p (a :: x) = a :: x) : p a = false := by
  cases hpa : p a with
  | false => rfl
  | true =>
    rw [List.dropWhile_cons, if_pos hpa] at h
    have hlen := (List.IsSuffix.sublist (List.dropWhile_suffix (l := x) p)).length_le
    rw [h] at hlen
    simp at hlen

theorem dropWhile_rdropWhile (p : Nat → Bool) (l : PyStr) (h : List.dropWhile p l = l) :
    List.dropWhile p (List.rdropWhile p l) = List.rdropWhile p l := by
  rcases hu : List.rdropWhile p l with _ | ⟨a, t⟩
  · simp
  · obtain ⟨t', ht'⟩ := List.rdropWhile_prefix p l
    rw [hu] at ht'
    have hl : l = a :: (t ++ t') := by
      rw [← ht']
      rfl
    have hpa : p a = false := by
      refine dropWhile_head_false p a (t ++ t') ?_
      rw [← hl]
      exact h
    rw [List.dropWhile_cons, if_neg (by simp [hpa])]

theorem stripEnds_idem (p : Nat → Bool) (s : PyStr) :
    stripEnds p (stripEnds p s) = stripEnds p s := by
  unfold stripEnds
  rw [dropWhile_rdropWhile p _ (List.dropWhile_idempotent p _), List.rdropWhile_idempotent]

theorem sanitize_stripEnds_fix (s : PyStr) :
    stripEnds stripChar (sanitize_filename_part s) = sanitize_filename_part s := by
  unfold sanitize_filename_part
  exact stripEnds_idem _ _

/-- C7: `sanitize_filename_part` is idempotent — applying it to its own
output returns that output unchanged — and deterministic: equal inputs
give equal outputs. -/
theorem sanitize_idempotent_deterministic :
    (∀ s, sanitize_filename_part (sanitize_filename_part s) = sanitize_filename_part s) ∧
    (∀ s t, s = t → sanitize_filename_part s = sanitize_filename_part t) := by
  constructor
  · intro s
    have hmap : (sanitize_filename_part s).map replaceSep = sanitize_filename_part s :=
      map_fix fun c hc => replaceSep_eq_self (mem_sanitize_props hc).1
    have hfil : (sanitize_filename_part s).filter (fun c => !invalidChar c)
        = sanitize_filename_part s :=
      List.filter_eq_self.mpr fun c hc => by simp [(mem_sanitize_props hc).2]
    calc sanitize_filename_part (sanitize_filename_part s)
        = stripEnds stripChar (((sanitize_filename_part s).map replaceSep).filter
            (fun c => !invalidChar c)) := rfl
      _ = stripEnds stripChar (sanitize_filename_part s) := by rw [hmap, hfil]
      _ = sanitize_filename_part s := sanitize_stripEnds_fix s
  · intro s t h
    rw [h]

/-- C7 witness: idempotence and determinism at a concrete input. -/
theorem sanitize_idempotent_deterministic_witness :
    sanitize_filename_part (sanitize_filename_part (pyStr " My/Vendor *Ltd. "))
        = sanitize_filename_part (pyStr " My/Vendor *Ltd. ") ∧
      sanitize_filename_part (pyStr "a b") = sanitize_filename_part (pyStr "a b") :=
  ⟨sanitize_idempotent_deterministic.1 _,
    sanitize_idempotent_deterministic.2 _ _ rfl⟩

/-- C6 counterexample: on the input `"\ta"` the code's sanitizer keeps the
leading tab (it strips only `'.'`, `'_'` and `' '`), while the reference
definition that trims all leading and trailing whitespace removes it. -/
theorem sanitize_spec_counterexample :
    sanitize_filename_part (pyStr "\ta") ≠ specSanitizeWS (pyStr "\ta") := by decide

/-- C6 (amended): for every input string, `sanitize_filename_part` equals
the reference definition whose final step trims leading and trailing
filler characters, dots, and space characters (not all whitespace); being
a total function on strings, it never raises and always returns a
(possibly empty) string. -/
theorem sanitize_eq_reference : ∀ s, sanitize_filename_part s = refSanitize s := by
  intro s
  have h1 : replaceSep = (fun c => if pathSep c || c == 32 then 95 else c) := by
    funext c
    simp [replaceSep, sepChar, pathSep, Bool.or_assoc]
  have h2 : (fun c : Nat => !invalidChar c) = (fun c : Nat => !specIllegalChar c) := rfl
  have h3 : stripChar = (fun c : Nat => c == 95 || c == 46 || c == 32) := by
    funext c
    cases h46 : (c == 46) <;> cases h95 : (c == 95) <;>
      simp [stripChar, h46, h95]
  unfold sanitize_filename_part refSanitize
  rw [← h1, ← h2, ← h3]

/-! ### Reconciler lemmas -/

theorem addAliasAux_nil (raw key : PyStr) :
    addAliasAux raw key [] = ([newVendorRecord raw key], true) := rfl

theorem addAliasAux_cons_found_add (raw key : PyStr) (r : VendorRecord) (rest : Registry)
    (h : r.name = key)
    (hc : lowerStr raw ∉ r.aliases.map lowerStr ∧ lowerStr raw ≠ lowerStr key) :
    addAliasAux raw key (r :: rest)
      = ({ r with aliases := r.aliases ++ [raw] } :: rest, true) := by
  unfold addAliasAux
  rw [if_pos h, if_pos hc]

theorem addAliasAux_cons_found_noop (raw key : PyStr) (r : VendorRecord) (rest : Registry)
    (h : r.name = key)
    (hc : ¬(lowerStr raw ∉ r.aliases.map lowerStr ∧ lowerStr raw ≠ lowerStr key)) :
    addAliasAux raw key (r :: rest) = (r :: rest, false) := by
  unfold addAliasAux
  rw [if_pos h, if_neg hc]

theorem addAliasAux_cons_miss (raw key : PyStr) (r : VendorRecord) (rest : Registry)
    (h : ¬ r.name = key) :
    addAliasAux raw key (r :: rest)
      = (r :: (addAliasAux raw key rest).1, (addAliasAux raw key rest).2) := by
  simp only [addAliasAux]
  rw [if_neg h]

/-- Structural characterization of one reconciler call: either the first
record named `key` already covers `raw` and nothing changes, or that
record gets `raw` appended to its aliases, or no record is named `key`
and a new record is appended at the end of the registry. -/
theorem addAliasAux_cases (raw key : PyStr) (reg : Registry) :
    (∃ pre r post, reg = pre ++ r :: post ∧ (∀ q ∈ pre, q.name ≠ key) ∧ r.name = key ∧
      (lowerStr raw ∈ r.aliases.map lowerStr ∨ lowerStr raw = lowerStr key) ∧
      addAliasAux raw key reg = (reg, false)) ∨
    (∃ pre r post, reg = pre ++ r :: post ∧ (∀ q ∈ pre, q.name ≠ key) ∧ r.name = key ∧
      lowerStr raw ∉ r.aliases.map lowerStr ∧ lowerStr raw ≠ lowerStr key ∧
      addAliasAux raw key reg
        = (pre ++ { r with aliases := r.aliases ++ [raw] } :: post, true)) ∨
    ((∀ q ∈ reg, q.name ≠ key) ∧
      addAliasAux raw key reg = (reg ++ [newVendorRecord raw key], true)) := by
  induction reg with
  | nil =>
    right; right
    exact ⟨by simp, addAliasAux_nil raw key⟩
  | cons r rest ih =>
    by_cases hname : r.name = key
    · by_cases hcond : lowerStr raw ∉ r.aliases.map lowerStr ∧ lowerStr raw ≠ lowerStr key
      · right; left
        exact ⟨[], r, rest, by simp, by simp, hname, hcond.1, hcond.2,
          addAliasAux_cons_found_add raw key r rest hname hcond⟩
      · left
        refine ⟨[], r, rest, by simp, by simp, hname, ?_, ?_⟩
        · rcases Decidable.em (lowerStr raw ∈ r.aliases.map lowerStr) with hm | hm
          · exact Or.inl hm
          · rcases Decidable.em (lowerStr raw = lowerStr key) with he | he
            · exact Or.inr he
            · exact absurd ⟨hm, he⟩ hcond
        · exact addAliasAux_cons_found_noop raw key r rest hname hcond
    · rcases ih with ⟨pre, q, post, hreg, hpre, hq, hcov, heq⟩ |
        ⟨pre, q, post, hreg, hpre, hq, hmem, hne, heq⟩ | ⟨hall, heq⟩
      · left
        refine ⟨r :: pre, q, post, by rw [hreg]; rfl, ?_, hq, hcov, ?_⟩
        · intro x hx
          rcases List.mem_cons.mp hx with rfl | hx'
          · exact hname
          · exact hpre x hx'
        · rw [addAliasAux_cons_miss raw key r rest hname, heq]
      · right; left
        refine ⟨r :: pre, q, post, by rw [hreg]; rfl, ?_, hq, hmem, hne, ?_⟩
        · intro x hx
          rcases List.mem_cons.mp hx with rfl | hx'
          · exact hname
          · exact hpre x hx'
        · rw [addAliasAux_cons_miss raw key r rest hname, heq]
          rfl
      · right; right
        refine ⟨?_, ?_⟩
        · intro x hx
          rcases List.mem_cons.mp hx with rfl | hx'
          · exact hname
          · exact hall x hx'
        · rw [addAliasAux_cons_miss raw key r rest hname, heq]
          rfl

/-- Calling the reconciler a second time with the same arguments is a
no-op: the registry is unchanged and `changed = false`. -/
theorem addAliasAux_idem (raw key : PyStr) (reg : Registry) :
    addAliasAux raw key (addAliasAux raw key reg).1
      = ((addAliasAux raw key reg).1, false) := by
  induction reg with
  | nil =>
    rw [addAliasAux_nil]
    refine addAliasAux_cons_found_noop _ _ _ _ rfl ?_
    by_cases h : lowerStr raw = lowerStr key
    · simp [newVendorRecord, h]
    · simp [newVendorRecord, h]
  | cons r rest ih =>
    by_cases hname : r.name = key
    · by_cases hcond : lowerStr raw ∉ r.aliases.map lowerStr ∧ lowerStr raw ≠ lowerStr key
      · rw [addAliasAux_cons_found_add _ _ _ _ hname hcond]
        refine addAliasAux_cons_found_noop _ _ _ _ hname ?_
        simp
      · rw [addAliasAux_cons_found_noop _ _ _ _ hname hcond]
        exact addAliasAux_cons_found_noop _ _ _ _ hname hcond
    · rw [addAliasAux_cons_miss _ _ _ _ hname]
      rw [addAliasAux_cons_miss _ _ _ _ hname, ih]

/-- Aliases already present under a canonical name survive any further
reconciler call (the reconciler is append-only). -/
theorem aliasPresent_mono (a key' raw key : PyStr) (reg : Registry)
    (h : aliasPresent a key' reg) : aliasPresent a key' (addAliasAux raw key reg).1 := by
  rcases addAliasAux_cases raw key reg with
    ⟨_, _, _, _, _, _, _, heq⟩ |
    ⟨pre, r, post, hreg, _, _, _, _, heq⟩ | ⟨_, heq⟩
  · rw [heq]
    exact h
  · rw [heq]
    obtain ⟨q, hq, hqname, hqmem⟩ := h
    rw [hreg] at hq
    rcases List.mem_append.mp hq with hq1 | hq2
    · exact ⟨q, List.mem_append_left _ hq1, hqname, hqmem⟩
    · rcases List.mem_cons.mp hq2 with rfl | hq3
      · refine ⟨{ q with aliases := q.aliases ++ [raw] },
          List.mem_append_right _ (List.mem_cons_self _ _), hqname, ?_⟩
        simp only [List.map_append]
        exact List.mem_append_left _ hqmem
      · exact ⟨q, List.mem_append_right _ (List.mem_cons_of_mem _ hq3), hqname, hqmem⟩
  · rw [heq]
    obtain ⟨q, hq, hqname, hqmem⟩ := h
    exact ⟨q, List.mem_append_left _ hq, hqname, hqmem⟩

/-- After reconciling `(raw, key)`, `raw` is recorded (case-insensitively)
under the canonical name `key`, provided it is not itself case-equal to
the key. -/
theorem aliasPresent_add_self (raw key : PyStr) (reg : Registry)
    (h : lowerStr raw ≠ lowerStr key) :
    aliasPresent raw key (addAliasAux raw key reg).1 := by
  rcases addAliasAux_cases raw key reg with
    ⟨pre, r, post, hreg, _, hrname, hcov, heq⟩ |
    ⟨pre, r, post, hreg, _, hrname, _, _, heq⟩ | ⟨_, heq⟩
  · rw [heq]
    rcases hcov with hm | he
    · refine ⟨r, ?_, hrname, hm⟩
      rw [hreg]
      exact List.mem_append_right _ (List.mem_cons_self _ _)
    · exact absurd he h
  · rw [heq]
    refine ⟨{ r with aliases := r.aliases ++ [raw] },
      List.mem_append_right _ (List.mem_cons_self _ _), hrname, ?_⟩
    simp
  · rw [heq]
    refine ⟨newVendorRecord raw key,
      List.mem_append_right _ (List.mem_cons_self _ _), rfl, ?_⟩
    simp [newVendorRecord, h]

/-- The reconciler never creates case-insensitive duplicates inside any
record's alias list. -/
theorem add_aliases_nodup (raw key : PyStr) (reg : Registry)
    (h : ∀ r ∈ reg, (r.aliases.map lowerStr).Nodup) :
    ∀ r ∈ (addAliasAux raw key reg).1, (r.aliases.map lowerStr).Nodup := by
  rcases addAliasAux_cases raw key reg with
    ⟨_, _, _, _, _, _, _, heq⟩ |
    ⟨pre, r, post, hreg, _, _, hmem, _, heq⟩ | ⟨_, heq⟩
  · rw [heq]
    exact h
  · rw [heq]
    intro q hq
    rcases List.mem_append.mp hq with hq1 | hq2
    · refine h q ?_
      rw [hreg]
      exact List.mem_append_left _ hq1
    · rcases List.mem_cons.mp hq2 with rfl | hq3
      · have hr : (r.aliases.map lowerStr).Nodup := by
          refine h r ?_
          rw [hreg]
          exact List.mem_append_right _ (List.mem_cons_self _ _)
        simp only [List.map_append, List.map_cons, List.map_nil]
        rw [List.nodup_append]
        refine ⟨hr, List.nodup_singleton _, ?_⟩
        intro x hx hx'
        simp only [List.mem_singleton] at hx'
        subst hx'
        exact hmem hx
      · refine h q ?_
        rw [hreg]
        exact List.mem_append_right _ (List.mem_cons_of_mem _ hq3)
  · rw [heq]
    intro q hq
    rcases List.mem_append.mp hq with hq1 | hq2
    · exact h q hq1
    · rcases List.mem_cons.mp hq2 with rfl | hq3
      · by_cases hl : lowerStr raw = lowerStr key <;> simp [newVendorRecord, hl]
      · simp at hq3

theorem find?_first {p : VendorRecord → Bool} (pre post : Registry) (r : VendorRecord)
    (hpre : ∀ q ∈ pre, p q = false) (hr : p r = true) :
    (pre ++ r :: post).find? p = some r := by
  induction pre with
  | nil => simp [hr]
  | cons a t ih =>
    have ha := hpre a (List.mem_cons_self a t)
    have hneg : ¬ p a = true := by simp [ha]
    rw [List.cons_append, List.find?_cons_of_neg _ hneg]
    exact ih fun q hq => hpre q (List.mem_cons_of_mem _ hq)

/-- The reconciler reports `changed = false` exactly when
`find_vendor_by_name` finds a record that already covers the raw name:
either the raw name is among its aliases case-insensitively, or it is
case-insensitively equal to the canonical key. -/
theorem add_changed_false_iff (reg : Registry) (raw norm : PyStr) :
    (add_or_update_vendor_alias reg raw norm).2 = false ↔
      ∃ r, find_vendor_by_name reg norm = some r ∧
        (lowerStr raw ∈ r.aliases.map lowerStr ∨
          lowerStr raw = lowerStr (canonicalKey norm)) := by
  unfold add_or_update_vendor_alias find_vendor_by_name
  rcases addAliasAux_cases raw (canonicalKey norm) reg with
    ⟨pre, r, post, hreg, hpre, hrname, hcov, heq⟩ |
    ⟨pre, r, post, hreg, hpre, hrname, hmem, hne, heq⟩ | ⟨hall, heq⟩
  · rw [heq]
    simp only [true_iff]
    refine ⟨r, ?_, hcov⟩
    rw [hreg]
    exact find?_first pre post r
      (fun q hq => by simp [hpre q hq]) (by simp [hrname])
  · rw [heq]
    constructor
    · intro hf
      exact absurd hf (by simp)
    · rintro ⟨r0, hfind, hcov⟩
      exfalso
      have hfind' : (pre ++ r :: post).find?
          (fun q => decide (q.name = canonicalKey norm)) = some r :=
        find?_first pre post r (fun q hq => by simp [hpre q hq]) (by simp [hrname])
      rw [hreg, hfind'] at hfind
      have hrr : r = r0 := Option.some.inj hfind
      subst hrr
      rcases hcov with hm | he
      · exact hmem hm
      · exact hne he
  · rw [heq]
    constructor
    · intro hf
      exact absurd hf (by simp)
    · rintro ⟨r0, hfind, _⟩
      exfalso
      have hmem0 : r0 ∈ reg := List.mem_of_find?_eq_some hfind
      have hp := List.find?_some hfind
      simp only [decide_eq_true_eq] at hp
      exact hall r0 hmem0 hp

/-- Every input record survives a reconciler call at the same position,
with the same canonical name and with its aliases extended only at the
end (by nothing, or by `raw`). -/
theorem addAliasAux_positional (raw key : PyStr) (reg : Registry) :
    ∀ (i : Nat) (r0 : VendorRecord), reg[i]? = some r0 →
      ∃ r1, (addAliasAux raw key reg).1[i]? = some r1 ∧ r1.name = r0.name ∧
        ∃ ext, r1.aliases = r0.aliases ++ ext := by
  induction reg with
  | nil =>
    intro i r0 h
    simp at h
  | cons r rest ih =>
    intro i r0 h
    by_cases hname : r.name = key
    · by_cases hcond : lowerStr raw ∉ r.aliases.map lowerStr ∧ lowerStr raw ≠ lowerStr key
      · rw [addAliasAux_cons_found_add _ _ _ _ hname hcond]
        cases i with
        | zero =>
          rw [List.getElem?_cons_zero] at h
          obtain rfl := Option.some.inj h
          exact ⟨{ r with aliases := r.aliases ++ [raw] },
            List.getElem?_cons_zero, rfl, [raw], rfl⟩
        | succ n =>
          rw [List.getElem?_cons_succ] at h
          exact ⟨r0, by rw [List.getElem?_cons_succ]; exact h, rfl, [], by simp⟩
      · rw [addAliasAux_cons_found_noop _ _ _ _ hname hcond]
        exact ⟨r0, h, rfl, [], by simp⟩
    · rw [addAliasAux_cons_miss _ _ _ _ hname]
      cases i with
      | zero =>
        rw [List.getElem?_cons_zero] at h
        obtain rfl := Option.some.inj h
        exact ⟨r, List.getElem?_cons_zero, rfl, [], by simp⟩
      | succ n =>
        rw [List.getElem?_cons_succ] at h
        obtain ⟨r1, h1, h2, h3⟩ := ih n r0 h
        exact ⟨r1, by rw [List.getElem?_cons_succ]; exact h1, h2, h3⟩

/-- C10: the reconciler is append-only.  When it reports `changed = false`
the registry is returned entirely unchanged; otherwise it either appends
exactly one alias to the end of one existing record's alias list or
appends exactly one new record at the end of the registry; and every
input record keeps its position, canonical name, and existing aliases in
order. -/
theorem reconcile_append_only (reg : Registry) (raw norm : PyStr) :
    ((add_or_update_vendor_alias reg raw norm).2 = false →
      add_or_update_vendor_alias reg raw norm = (reg, false)) ∧
    (add_or_update_vendor_alias reg raw norm = (reg, false) ∨
      (∃ pre r post, reg = pre ++ r :: post ∧
        add_or_update_vendor_alias reg raw norm
          = (pre ++ { r with aliases := r.aliases ++ [raw] } :: post, true)) ∨
      add_or_update_vendor_alias reg raw norm
        = (reg ++ [newVendorRecord raw (canonicalKey norm)], true)) ∧
    (∀ (i : Nat) (r0 : VendorRecord), reg[i]? = some r0 →
      ∃ r1, (add_or_update_vendor_alias reg raw norm).1[i]? = some r1 ∧
        r1.name = r0.name ∧ ∃ ext, r1.aliases = r0.aliases ++ ext) := by
  unfold add_or_update_vendor_alias
  refine ⟨?_, ?_, addAliasAux_positional raw (canonicalKey norm) reg⟩
  · intro hf
    rcases addAliasAux_cases raw (canonicalKey norm) reg with
      ⟨_, _, _, _, _, _, _, heq⟩ | ⟨_, _, _, _, _, _, _, _, heq⟩ | ⟨_, heq⟩
    · exact heq
    · rw [heq] at hf
      exact absurd hf (by simp)
    · rw [heq] at hf
      exact absurd hf (by simp)
  · rcases addAliasAux_cases raw (canonicalKey norm) reg with
      ⟨_, _, _, _, _, _, _, heq⟩ |
      ⟨pre, r, post, hreg, _, _, _, _, heq⟩ | ⟨_, heq⟩
    · exact Or.inl heq
    · exact Or.inr (Or.inl ⟨pre, r, post, hreg, heq⟩)
    · exact Or.inr (Or.inr heq)

/-- C10 witness: the append-only theorem at a concrete registry — a
no-change call returns the registry unchanged, and record 0 survives with
name and aliases intact. -/
theorem reconcile_append_only_witness :
    add_or_update_vendor_alias [⟨pyStr "Amazon", [pyStr "amzn"]⟩]
        (pyStr "amzn") (pyStr "Amazon")
      = ([⟨pyStr "Amazon", [pyStr "amzn"]⟩], false) ∧
    ∃ r1, (add_or_update_vendor_alias [⟨pyStr "Amazon", [pyStr "amzn"]⟩]
        (pyStr "amzn") (pyStr "Amazon")).1[0]? = some r1 ∧
      r1.name = (⟨pyStr "Amazon", [pyStr "amzn"]⟩ : VendorRecord).name ∧
      ∃ ext, r1.aliases = (⟨pyStr "Amazon", [pyStr "amzn"]⟩ : VendorRecord).aliases ++ ext :=
  ⟨(reconcile_append_only [⟨pyStr "Amazon", [pyStr "amzn"]⟩]
      (pyStr "amzn") (pyStr "Amazon")).1 (by decide),
    (reconcile_append_only [⟨pyStr "Amazon", [pyStr "amzn"]⟩]
      (pyStr "amzn") (pyStr "Amazon")).2.2 0 _ rfl⟩

/-- C5 counterexample: the first reconciler call does not always return
`changed = true` — when the registry already records the raw name as an
alias of the vendor, the very first call is a no-op. -/
theorem reconcile_first_call_counterexample :
    (add_or_update_vendor_alias [⟨pyStr "Amazon", [pyStr "amzn"]⟩]
        (pyStr "amzn") (pyStr "Amazon")).2 = false := by decide

/-- C5 (amended): reconcile applied a second time with the same arguments
is always a no-op (`changed = false`, registry unchanged); the first call
reports `changed = false` exactly when the found record already covers the
raw name; and alias lists that were case-insensitively duplicate-free stay
duplicate-free. -/
theorem reconcile_idempotent (reg : Registry) (raw norm : PyStr)
    (hnod : ∀ r ∈ reg, (r.aliases.map lowerStr).Nodup) :
    (add_or_update_vendor_alias (add_or_update_vendor_alias reg raw norm).1 raw norm
        = ((add_or_update_vendor_alias reg raw norm).1, false)) ∧
    ((add_or_update_vendor_alias reg raw norm).2 = false ↔
      ∃ r, find_vendor_by_name reg norm = some r ∧
        (lowerStr raw ∈ r.aliases.map lowerStr ∨
          lowerStr raw = lowerStr (canonicalKey norm))) ∧
    (∀ r ∈ (add_or_update_vendor_alias reg raw norm).1,
      (r.aliases.map lowerStr).Nodup) :=
  ⟨addAliasAux_idem raw (canonicalKey norm) reg, add_changed_false_iff reg raw norm,
    add_aliases_nodup raw (canonicalKey norm) reg hnod⟩

/-- C5 witness: the second call at a concrete input is a no-op. -/
theorem reconcile_idempotent_witness :
    add_or_update_vendor_alias
        (add_or_update_vendor_alias [] (pyStr "Amazon EU Sarl") (pyStr "Amazon")).1
        (pyStr "Amazon EU Sarl") (pyStr "Amazon")
      = ((add_or_update_vendor_alias [] (pyStr "Amazon EU Sarl") (pyStr "Amazon")).1,
          false) :=
  (reconcile_idempotent [] (pyStr "Amazon EU Sarl") (pyStr "Amazon") (by decide)).1

/-! ### Character-level case lemmas (ASCII arithmetic) -/

theorem lowerChar_eq (c : Nat) :
    lowerChar c = if 65 ≤ c ∧ c ≤ 90 then c + 32 else c := by
  unfold lowerChar isAsciiUpper
  by_cases h : 65 ≤ c ∧ c ≤ 90
  · rw [if_pos (by simp [h.1, h.2]), if_pos h]
  · rw [if_neg (by simpa using h), if_neg h]

theorem upperChar_eq (c : Nat) :
    upperChar c = if 97 ≤ c ∧ c ≤ 122 then c - 32 else c := by
  unfold upperChar isAsciiLower
  by_cases h : 97 ≤ c ∧ c ≤ 122
  · rw [if_pos (by simp [h.1, h.2]), if_pos h]
  · rw [if_neg (by simpa using h), if_neg h]

theorem isCased_iff (c : Nat) :
    isCased c = true ↔ (65 ≤ c ∧ c ≤ 90) ∨ (97 ≤ c ∧ c ≤ 122) := by
  simp [isCased, isAsciiUpper, isAsciiLower]

theorem isCased_false_iff (c : Nat) :
    isCased c = false ↔ ¬((65 ≤ c ∧ c ≤ 90) ∨ (97 ≤ c ∧ c ≤ 122)) := by
  rw [← isCased_iff]
  cases isCased c <;> simp

theorem lowerChar_lowerChar (c : Nat) : lowerChar (lowerChar c) = lowerChar c := by
  simp only [lowerChar_eq]
  split_ifs <;> omega

theorem lowerChar_upperChar (c : Nat) : lowerChar (upperChar c) = lowerChar c := by
  simp only [lowerChar_eq, upperChar_eq]
  split_ifs <;> omega

theorem upperChar_congr {a b : Nat} (h : lowerChar a = lowerChar b) :
    upperChar a = upperChar b := by
  rw [lowerChar_eq, lowerChar_eq] at h
  rw [upperChar_eq, upperChar_eq]
  split_ifs at h ⊢ <;> omega

theorem isCased_congr {a b : Nat} (h : lowerChar a = lowerChar b) :
    isCased a = true ↔ isCased b = true := by
  rw [lowerChar_eq, lowerChar_eq] at h
  rw [isCased_iff, isCased_iff]
  split_ifs at h <;> omega

theorem lowerChar_of_not_cased {a : Nat} (h : isCased a = false) : lowerChar a = a := by
  rw [isCased_false_iff] at h
  rw [lowerChar_eq]
  split_ifs <;> omega

theorem isCased_eq_congr {a b : Nat} (h : lowerChar a = lowerChar b) :
    isCased a = isCased b := by
  have hiff := isCased_congr h
  cases h1 : isCased a <;> cases h2 : isCased b
  · rfl
  · rw [h1, h2] at hiff
    simp at hiff
  · rw [h1, h2] at hiff
    simp at hiff
  · rfl

/-! ### Title-casing lemmas -/

theorem lowerStr_titleAux (b : Bool) (u : PyStr) :
    lowerStr (titleAux b u) = lowerStr u := by
  induction u generalizing b with
  | nil => rfl
  | cons c rest ih =>
    have ih' : ∀ b, List.map lowerChar (titleAux b rest) = List.map lowerChar rest := ih
    cases hcc : isCased c <;> cases b <;>
      simp [titleAux, hcc, lowerStr, lowerChar_lowerChar, lowerChar_upperChar, ih']

theorem titleAux_congr {u v : PyStr} (h : lowerStr u = lowerStr v) (b : Bool) :
    titleAux b u = titleAux b v := by
  induction u generalizing v b with
  | nil =>
    have hv : v = [] := by
      cases v with
      | nil => rfl
      | cons a t => simp [lowerStr] at h
    subst hv
    rfl
  | cons c rest ih =>
    cases v with
    | nil => simp [lowerStr] at h
    | cons c' rest' =>
      simp only [lowerStr, List.map_cons, List.cons.injEq] at h
      obtain ⟨hhead, htail⟩ := h
      have hcEq : isCased c = isCased c' := isCased_eq_congr hhead
      simp only [titleAux]
      have htail2 : titleAux (isCased c) rest = titleAux (isCased c') rest' := by
        rw [hcEq]
        exact ih htail _
      rw [htail2]
      congr 1
      have hc2 := hcEq
      cases hc1 : isCased c
      · rw [hc1] at hc2
        rw [if_neg (by simp), if_neg (by simp [← hc2])]
        calc c = lowerChar c := (lowerChar_of_not_cased hc1).symm
          _ = lowerChar c' := hhead
          _ = c' := lowerChar_of_not_cased hc2.symm
      · rw [hc1] at hc2
        rw [if_pos rfl, if_pos hc2.symm]
        cases b
        · rw [if_neg (by simp), if_neg (by simp)]
          exact upperChar_congr hhead
        · rw [if_pos rfl, if_pos rfl]
          exact hhead

theorem pyTitle_congr {u v : PyStr} (h : lowerStr u = lowerStr v) :
    pyTitle u = pyTitle v :=
  titleAux_congr h false

theorem lowerStr_pyTitle (u : PyStr) : lowerStr (pyTitle u) = lowerStr u :=
  lowerStr_titleAux false u

theorem pyTitle_idem (u : PyStr) : pyTitle (pyTitle u) = pyTitle u :=
  pyTitle_congr (lowerStr_pyTitle u)

theorem pyTitle_fixed_unique {s t : PyStr} (hs : pyTitle s = s) (ht : pyTitle t = t)
    (h : lowerStr s = lowerStr t) : s = t := by
  calc s = pyTitle s := hs.symm
    _ = pyTitle t := pyTitle_congr h
    _ = t := ht

theorem canonicalKey_fixed_pyTitle {s : PyStr} (h : canonicalKey s = s) :
    pyTitle s = s := by
  conv_lhs => rw [← h]
  unfold canonicalKey
  rw [pyTitle_idem]
  exact h

/-- Two registry names in canonical form that agree case-insensitively
are equal: the exact-match record search of the code coincides with the
case-insensitive uniqueness of the spec on canonical names. -/
theorem canonicalKey_fixed_unique {s t : PyStr} (hs : canonicalKey s = s)
    (ht : canonicalKey t = t) (h : lowerStr s = lowerStr t) : s = t :=
  pyTitle_fixed_unique (canonicalKey_fixed_pyTitle hs) (canonicalKey_fixed_pyTitle ht) h

theorem bool_eq_of_iff {a b : Bool} (h : a = true ↔ b = true) : a = b := by
  cases a <;> cases b
  · rfl
  · exact absurd (h.mpr rfl) (by simp)
  · exact absurd (h.mp rfl) (by simp)
  · rfl

theorem sepChar_lowerChar (c : Nat) : sepChar (lowerChar c) = sepChar c := by
  refine bool_eq_of_iff ?_
  simp only [sepChar, lowerChar_eq, Bool.or_eq_true, beq_iff_eq]
  split_ifs <;> omega

theorem sepChar_upperChar (c : Nat) : sepChar (upperChar c) = sepChar c := by
  refine bool_eq_of_iff ?_
  simp only [sepChar, upperChar_eq, Bool.or_eq_true, beq_iff_eq]
  split_ifs <;> omega

theorem invalidChar_lowerChar (c : Nat) : invalidChar (lowerChar c) = invalidChar c := by
  refine bool_eq_of_iff ?_
  simp only [invalidChar, lowerChar_eq, Bool.or_eq_true, beq_iff_eq]
  split_ifs <;> omega

theorem invalidChar_upperChar (c : Nat) : invalidChar (upperChar c) = invalidChar c := by
  refine bool_eq_of_iff ?_
  simp only [invalidChar, upperChar_eq, Bool.or_eq_true, beq_iff_eq]
  split_ifs <;> omega

theorem stripChar_lowerChar (c : Nat) : stripChar (lowerChar c) = stripChar c := by
  refine bool_eq_of_iff ?_
  simp only [stripChar, lowerChar_eq, Bool.or_eq_true, beq_iff_eq]
  split_ifs <;> omega

theorem stripChar_upperChar (c : Nat) : stripChar (upperChar c) = stripChar c := by
  refine bool_eq_of_iff ?_
  simp only [stripChar, upperChar_eq, Bool.or_eq_true, beq_iff_eq]
  split_ifs <;> omega

theorem lowerChar_eq_95_iff (c : Nat) : lowerChar c = 95 ↔ c = 95 := by
  rw [lowerChar_eq]
  split_ifs <;> omega

theorem upperChar_eq_95_iff (c : Nat) : upperChar c = 95 ↔ c = 95 := by
  rw [upperChar_eq]
  split_ifs <;> omega

theorem stripEnds_head? {p : Nat → Bool} {l : PyStr} {a : Nat}
    (h : (stripEnds p l).head? = some a) : p a = false := by
  unfold stripEnds at h
  obtain ⟨t, ht⟩ := List.rdropWhile_prefix p (l.dropWhile p)
  rcases hu : List.rdropWhile p (l.dropWhile p) with _ | ⟨x, xs⟩
  · rw [hu] at h
    simp at h
  · rw [hu] at h
    simp only [List.head?_cons] at h
    obtain rfl := Option.some.inj h
    rw [hu] at ht
    have hm : l.dropWhile p = x :: (xs ++ t) := by
      rw [← ht]
      rfl
    have hfix : List.dropWhile p (l.dropWhile p) = l.dropWhile p :=
      List.dropWhile_idempotent p l
    rw [hm] at hfix
    exact dropWhile_head_false p x (xs ++ t) hfix

theorem stripEnds_getLast? {p : Nat → Bool} {l : PyStr} {a : Nat}
    (h : (stripEnds p l).getLast? = some a) : p a = false := by
  unfold stripEnds at h
  have hne : List.rdropWhile p (l.dropWhile p) ≠ [] := by
    intro hnil
    rw [hnil] at h
    simp at h
  have hnot := List.rdropWhile_last_not p (l.dropWhile p) hne
  have heq : (List.rdropWhile p (l.dropWhile p)).getLast? =
      some ((List.rdropWhile p (l.dropWhile p)).getLast hne) :=
    List.getLast?_eq_getLast _ hne
  rw [h] at heq
  obtain rfl := Option.some.inj heq
  simpa using hnot

theorem stripEnds_eq_self {p : Nat → Bool} {l : PyStr}
    (hh : ∀ a, l.head? = some a → p a = false)
    (hl : ∀ a, l.getLast? = some a → p a = false) : stripEnds p l = l := by
  unfold stripEnds
  have h1 : l.dropWhile p = l := by
    cases l with
    | nil => rfl
    | cons a t =>
      have := hh a rfl
      rw [List.dropWhile_cons, if_neg (by simp [this])]
  rw [h1, List.rdropWhile_eq_self_iff]
  intro hne
  have : l.getLast? = some (l.getLast hne) := List.getLast?_eq_getLast _ hne
  simp [hl _ this]

theorem mem_titleAux {b : Bool} {u : PyStr} {c : Nat} (h : c ∈ titleAux b u) :
    ∃ c' ∈ u, c = c' ∨ c = lowerChar c' ∨ c = upperChar c' := by
  induction u generalizing b with
  | nil => simp [titleAux] at h
  | cons a rest ih =>
    simp only [titleAux, List.mem_cons] at h
    rcases h with h | h
    · refine ⟨a, List.mem_cons_self _ _, ?_⟩
      split_ifs at h
      · exact Or.inr (Or.inl h)
      · exact Or.inr (Or.inr h)
      · exact Or.inl h
    · obtain ⟨c', hc', hd⟩ := ih h
      exact ⟨c', List.mem_cons_of_mem _ hc', hd⟩

theorem titleAux_head? {b : Bool} {u : PyStr} {c : Nat}
    (h : (titleAux b u).head? = some c) :
    ∃ c', u.head? = some c' ∧ (c = c' ∨ c = lowerChar c' ∨ c = upperChar c') := by
  cases u with
  | nil => simp [titleAux] at h
  | cons a rest =>
    simp only [titleAux, List.head?_cons] at h
    obtain rfl := Option.some.inj h
    refine ⟨a, rfl, ?_⟩
    split_ifs <;> simp

theorem titleAux_getLast? {b : Bool} {u : PyStr} {c : Nat}
    (h : (titleAux b u).getLast? = some c) :
    ∃ c', u.getLast? = some c' ∧ (c = c' ∨ c = lowerChar c' ∨ c = upperChar c') := by
  induction u generalizing b with
  | nil => simp [titleAux] at h
  | cons a rest ih =>
    cases rest with
    | nil =>
      have hstep : titleAux b [a]
          = [if isCased a then (if b then lowerChar a else upperChar a) else a] := rfl
      rw [hstep] at h
      simp only [List.getLast?_singleton] at h
      obtain rfl := Option.some.inj h
      refine ⟨a, rfl, ?_⟩
      split_ifs <;> simp
    | cons a2 rest2 =>
      have hstep : titleAux b (a :: a2 :: rest2)
          = (if isCased a then (if b then lowerChar a else upperChar a) else a)
            :: titleAux (isCased a) (a2 :: rest2) := rfl
      rw [hstep] at h
      have hstep2 : titleAux (isCased a) (a2 :: rest2)
          = (if isCased a2 then (if isCased a then lowerChar a2 else upperChar a2) else a2)
            :: titleAux (isCased a2) rest2 := rfl
      rw [hstep2] at h
      rw [List.getLast?_cons_cons] at h
      rw [← hstep2] at h
      obtain ⟨c', hc', hd⟩ := ih h
      exact ⟨c', by rw [List.getLast?_cons_cons]; exact hc', hd⟩

theorem mem_canonicalKey_props {n : PyStr} {c : Nat} (h : c ∈ canonicalKey n) :
    (c = 32 ∨ sepChar c = false) ∧ invalidChar c = false ∧ c ≠ 95 := by
  unfold canonicalKey at h
  obtain ⟨c', hc', hd⟩ := mem_titleAux h
  obtain ⟨c'', hc'', he⟩ := List.mem_map.mp hc'
  have hprops := mem_sanitize_props hc''
  by_cases h95 : c'' = 95
  · subst h95
    simp only [if_pos rfl] at he
    subst he
    rcases hd with rfl | rfl | rfl
    · exact ⟨by decide, by decide, by decide⟩
    · exact ⟨by decide, by decide, by decide⟩
    · exact ⟨by decide, by decide, by decide⟩
  · rw [if_neg h95] at he
    subst he
    rcases hd with rfl | rfl | rfl
    · exact ⟨Or.inr hprops.1, hprops.2, h95⟩
    · refine ⟨Or.inr ?_, ?_, ?_⟩
      · rw [sepChar_lowerChar]
        exact hprops.1
      · rw [invalidChar_lowerChar]
        exact hprops.2
      · intro hx
        exact h95 ((lowerChar_eq_95_iff c'').mp hx)
    · refine ⟨Or.inr ?_, ?_, ?_⟩
      · rw [sepChar_upperChar]
        exact hprops.1
      · rw [invalidChar_upperChar]
        exact hprops.2
      · intro hx
        exact h95 ((upperChar_eq_95_iff c'').mp hx)

theorem stripChar_false_iff (c : Nat) :
    stripChar c = false ↔ c ≠ 46 ∧ c ≠ 95 ∧ c ≠ 32 := by
  constructor
  · intro h
    refine ⟨?_, ?_, ?_⟩ <;> intro hc <;> subst hc <;> simp [stripChar] at h
  · intro h
    simp [stripChar, h.1, h.2.1, h.2.2]

theorem canonicalKey_head_strip {n : PyStr} {c : Nat}
    (h : (canonicalKey n).head? = some c) : stripChar c = false := by
  unfold canonicalKey at h
  obtain ⟨c', hc', hd⟩ := titleAux_head? h
  rw [underscoresToSpaces, List.head?_map] at hc'
  rcases hv : (sanitize_filename_part n).head? with _ | c''
  · rw [hv] at hc'
    simp at hc'
  · rw [hv] at hc'
    have hc2 : some (if c'' = 95 then 32 else c'') = some c' := hc'
    obtain rfl := Option.some.inj hc2
    have hv' := hv
    unfold sanitize_filename_part at hv'
    have hstrip : stripChar c'' = false := stripEnds_head? hv'
    have h95 : c'' ≠ 95 := ((stripChar_false_iff c'').mp hstrip).2.1
    rw [if_neg h95] at hd
    rcases hd with rfl | rfl | rfl
    · exact hstrip
    · rw [stripChar_lowerChar]
      exact hstrip
    · rw [stripChar_upperChar]
      exact hstrip

theorem canonicalKey_getLast_strip {n : PyStr} {c : Nat}
    (h : (canonicalKey n).getLast? = some c) : stripChar c = false := by
  unfold canonicalKey at h
  obtain ⟨c', hc', hd⟩ := titleAux_getLast? h
  rw [underscoresToSpaces, List.getLast?_map] at hc'
  rcases hv : (sanitize_filename_part n).getLast? with _ | c''
  · rw [hv] at hc'
    simp at hc'
  · rw [hv] at hc'
    have hc2 : some (if c'' = 95 then 32 else c'') = some c' := hc'
    obtain rfl := Option.some.inj hc2
    have hv' := hv
    unfold sanitize_filename_part at hv'
    have hstrip : stripChar c'' = false := stripEnds_getLast? hv'
    have h95 : c'' ≠ 95 := ((stripChar_false_iff c'').mp hstrip).2.1
    rw [if_neg h95] at hd
    rcases hd with rfl | rfl | rfl
    · exact hstrip
    · rw [stripChar_lowerChar]
      exact hstrip
    · rw [stripChar_upperChar]
      exact hstrip

/-- The canonical-key derivation is idempotent: a canonical vendor name is
already sanitized and title-cased, so deriving the key again returns it
unchanged. -/
theorem canonicalKey_idem (n : PyStr) :
    canonicalKey (canonicalKey n) = canonicalKey n := by
  have hA : (canonicalKey n).map replaceSep
      = (canonicalKey n).map (fun c => if c = 32 then 95 else c) := by
    refine List.map_congr_left fun c hc => ?_
    obtain ⟨h1, _, _⟩ := mem_canonicalKey_props hc
    rcases h1 with rfl | hsep
    · decide
    · have h32 : c ≠ 32 := by
        intro h32
        rw [h32] at hsep
        simp [sepChar] at hsep
      rw [replaceSep_eq_self hsep, if_neg h32]
  have hB : ((canonicalKey n).map (fun c => if c = 32 then 95 else c)).filter
        (fun c => !invalidChar c)
      = (canonicalKey n).map (fun c => if c = 32 then 95 else c) := by
    refine List.filter_eq_self.mpr fun a ha => ?_
    obtain ⟨c, hc, hfc⟩ := List.mem_map.mp ha
    obtain ⟨_, hinv, _⟩ := mem_canonicalKey_props hc
    subst hfc
    by_cases h32 : c = 32
    · subst h32
      decide
    · rw [if_neg h32]
      simp [hinv]
  have hC : stripEnds stripChar
        ((canonicalKey n).map (fun c => if c = 32 then 95 else c))
      = (canonicalKey n).map (fun c => if c = 32 then 95 else c) := by
    refine stripEnds_eq_self ?_ ?_
    · intro a ha
      rw [List.head?_map] at ha
      rcases hh : (canonicalKey n).head? with _ | c
      · rw [hh] at ha
        simp at ha
      · rw [hh] at ha
        have ha2 : some (if c = 32 then 95 else c) = some a := ha
        obtain rfl := Option.some.inj ha2
        have hs : stripChar c = false := canonicalKey_head_strip hh
        have h32 : c ≠ 32 := ((stripChar_false_iff c).mp hs).2.2
        rw [if_neg h32]
        exact hs
    · intro a ha
      rw [List.getLast?_map] at ha
      rcases hh : (canonicalKey n).getLast? with _ | c
      · rw [hh] at ha
        simp at ha
      · rw [hh] at ha
        have ha2 : some (if c = 32 then 95 else c) = some a := ha
        obtain rfl := Option.some.inj ha2
        have hs : stripChar c = false := canonicalKey_getLast_strip hh
        have h32 : c ≠ 32 := ((stripChar_false_iff c).mp hs).2.2
        rw [if_neg h32]
        exact hs
  have hsan : sanitize_filename_part (canonicalKey n)
      = (canonicalKey n).map (fun c => if c = 32 then 95 else c) := by
    unfold sanitize_filename_part
    rw [hA, hB, hC]
  have hspace : underscoresToSpaces
        ((canonicalKey n).map (fun c => if c = 32 then 95 else c))
      = canonicalKey n := by
    unfold underscoresToSpaces
    rw [List.map_map]
    refine map_fix fun c hc => ?_
    obtain ⟨_, _, h95⟩ := mem_canonicalKey_props hc
    by_cases h32 : c = 32
    · subst h32
      decide
    · simp only [Function.comp_apply, if_neg h32, if_neg h95]
  have hfix : pyTitle (canonicalKey n) = canonicalKey n := by
    unfold canonicalKey
    exact pyTitle_idem _
  show pyTitle (underscoresToSpaces (sanitize_filename_part (canonicalKey n)))
      = canonicalKey n
  rw [hsan, hspace, hfix]

theorem mem_allAliasesLower {reg : Registry} {x : PyStr} (h : x ∈ allAliasesLower reg) :
    ∃ q ∈ reg, x ∈ q.aliases.map lowerStr := by
  unfold allAliasesLower at h
  rw [List.mem_flatten] at h
  obtain ⟨l, hl, hx⟩ := h
  obtain ⟨q, hq, rfl⟩ := List.mem_map.mp hl
  exact ⟨q, hq, hx⟩

theorem allAliasesLower_middle (pre post : Registry) (r : VendorRecord) :
    allAliasesLower (pre ++ r :: post)
      = allAliasesLower pre ++ (r.aliases.map lowerStr ++ allAliasesLower post) := by
  simp [allAliasesLower]

/-- C1 (amended): the reconciler preserves all `VendorRecord` invariants
provided the raw name is not already recorded as an alias of a different
vendor. -/
theorem reconcile_preserves_invariants (reg : Registry) (raw norm : PyStr)
    (hinv : RegInv reg) (hcf : crossFree raw (canonicalKey norm) reg) :
    RegInv (add_or_update_vendor_alias reg raw norm).1 := by
  obtain ⟨h1, h2, h3, h4⟩ := hinv
  unfold crossFree at hcf
  unfold add_or_update_vendor_alias
  rcases addAliasAux_cases raw (canonicalKey norm) reg with
    ⟨_, _, _, _, _, _, _, heq⟩ |
    ⟨pre, r, post, hreg, hpre, hrname, hmem, hne, heq⟩ | ⟨hall, heq⟩
  · rw [heq]
    exact ⟨h1, h2, h3, h4⟩
  · rw [heq]
    subst hreg
    have hpost : ∀ q ∈ post, q.name ≠ canonicalKey norm := by
      intro q hq hqname
      have hnames := h2
      rw [List.map_append, List.nodup_append, List.map_cons, List.nodup_cons] at hnames
      refine hnames.2.1.1 ?_
      exact List.mem_map.mpr ⟨q, hq, by rw [hqname, hrname]⟩
    refine ⟨?_, ?_, ?_, ?_⟩
    · intro q hq
      rcases List.mem_append.mp hq with hq1 | hq2
      · exact h1 q (List.mem_append_left _ hq1)
      · rcases List.mem_cons.mp hq2 with rfl | hq3
        · exact h1 r (List.mem_append_right _ (List.mem_cons_self _ _))
        · exact h1 q (List.mem_append_right _ (List.mem_cons_of_mem _ hq3))
    · have hmap : (pre ++ { r with aliases := r.aliases ++ [raw] } :: post).map
            (fun q => lowerStr q.name)
          = (pre ++ r :: post).map (fun q => lowerStr q.name) := by
        simp
      rw [hmap]
      exact h2
    · intro q hq a ha
      rcases List.mem_append.mp hq with hq1 | hq2
      · exact h3 q (List.mem_append_left _ hq1) a ha
      · rcases List.mem_cons.mp hq2 with rfl | hq3
        · rcases List.mem_append.mp ha with ha1 | ha2
          · exact h3 r (List.mem_append_right _ (List.mem_cons_self _ _)) a ha1
          · simp only [List.mem_singleton] at ha2
            subst ha2
            show lowerStr a ≠ lowerStr r.name
            rw [hrname]
            exact hne
        · exact h3 q (List.mem_append_right _ (List.mem_cons_of_mem _ hq3)) a ha
    · have hnotin : lowerStr raw ∉
          allAliasesLower pre ++ (r.aliases.map lowerStr ++ allAliasesLower post) := by
        intro hx
        rcases List.mem_append.mp hx with hA | hMB
        · obtain ⟨q, hq, hqa⟩ := mem_allAliasesLower hA
          exact hcf q (List.mem_append_left _ hq) (hpre q hq) hqa
        · rcases List.mem_append.mp hMB with hM | hB
          · exact hmem hM
          · obtain ⟨q, hq, hqa⟩ := mem_allAliasesLower hB
            exact hcf q (List.mem_append_right _ (List.mem_cons_of_mem _ hq))
              (hpost q hq) hqa
      rw [allAliasesLower_middle]
      have hshape : allAliasesLower pre
            ++ ((r.aliases ++ [raw]).map lowerStr ++ allAliasesLower post)
          = (allAliasesLower pre ++ r.aliases.map lowerStr)
            ++ lowerStr raw :: allAliasesLower post := by
        simp [List.append_assoc]
      show (allAliasesLower pre
          ++ ((r.aliases ++ [raw]).map lowerStr ++ allAliasesLower post)).Nodup
      rw [hshape]
      have hperm : List.Perm
          ((allAliasesLower pre ++ r.aliases.map lowerStr)
            ++ lowerStr raw :: allAliasesLower post)
          (lowerStr raw :: ((allAliasesLower pre ++ r.aliases.map lowerStr)
            ++ allAliasesLower post)) := List.perm_middle
      rw [hperm.nodup_iff, List.nodup_cons]
      constructor
      · intro hx
        refine hnotin ?_
        rw [List.append_assoc] at hx
        rcases List.mem_append.mp hx with hA | hMB
        · exact List.mem_append_left _ hA
        · exact List.mem_append_right _ hMB
      · have h4' := h4
        rw [allAliasesLower_middle, ← List.append_assoc] at h4'
        exact h4'
  · rw [heq]
    have hkeyfix : canonicalKey (canonicalKey norm) = canonicalKey norm :=
      canonicalKey_idem norm
    refine ⟨?_, ?_, ?_, ?_⟩
    · intro q hq
      rcases List.mem_append.mp hq with hq1 | hq2
      · exact h1 q hq1
      · rcases List.mem_cons.mp hq2 with rfl | hq3
        · exact hkeyfix
        · simp at hq3
    · rw [List.map_append, List.nodup_append]
      refine ⟨h2, by simp, ?_⟩
      intro x hx hx2
      simp only [List.map_cons, List.map_nil, List.mem_singleton] at hx2
      subst hx2
      obtain ⟨q, hq, hqeq⟩ := List.mem_map.mp hx
      have hqkey : q.name = canonicalKey norm :=
        canonicalKey_fixed_unique (h1 q hq) hkeyfix hqeq
      exact hall q hq hqkey
    · intro q hq a ha
      rcases List.mem_append.mp hq with hq1 | hq2
      · exact h3 q hq1 a ha
      · rcases List.mem_cons.mp hq2 with rfl | hq3
        · unfold newVendorRecord at ha
          by_cases hl : lowerStr raw = lowerStr (canonicalKey norm)
          · rw [if_pos hl] at ha
            simp at ha
          · rw [if_neg hl] at ha
            simp only [List.mem_singleton] at ha
            subst ha
            exact hl
        · simp at hq3
    · have hexp : allAliasesLower (reg ++ [newVendorRecord raw (canonicalKey norm)])
          = allAliasesLower reg ++ (newVendorRecord raw (canonicalKey norm)).aliases.map lowerStr := by
        simp [allAliasesLower]
      rw [hexp]
      unfold newVendorRecord
      by_cases hl : lowerStr raw = lowerStr (canonicalKey norm)
      · rw [if_pos hl]
        simpa using h4
      · rw [if_neg hl]
        rw [List.nodup_append]
        refine ⟨h4, by simp, ?_⟩
        intro x hx hx2
        simp only [List.map_cons, List.map_nil, List.mem_singleton] at hx2
        subst hx2
        obtain ⟨q, hq, hqa⟩ := mem_allAliasesLower hx
        exact hcf q hq (hall q hq) hqa

/-- C1 counterexample: reconciling a raw name that is already an alias of
a *different* vendor duplicates it across records, so the invariant
bundle is not preserved for arbitrary inputs.  Registry
`[{name "A", aliases ["x"]}, {name "B", aliases []}]` satisfies all
invariants, but reconciling `raw="x", norm="B"` records `"x"` under `"B"`
as well. -/
theorem reconcile_invariants_counterexample :
    RegInv [⟨pyStr "A", [pyStr "x"]⟩, ⟨pyStr "B", []⟩] ∧
      ¬ RegInv (add_or_update_vendor_alias
          [⟨pyStr "A", [pyStr "x"]⟩, ⟨pyStr "B", []⟩] (pyStr "x") (pyStr "B")).1 := by
  decide

/-- C1 witness: the amended preservation theorem at a concrete registry
and input. -/
theorem reconcile_preserves_invariants_witness :
    RegInv (add_or_update_vendor_alias [⟨pyStr "Amazon", []⟩]
        (pyStr "Amazon EU Sarl") (pyStr "Amazon")).1 :=
  reconcile_preserves_invariants [⟨pyStr "Amazon", []⟩]
    (pyStr "Amazon EU Sarl") (pyStr "Amazon") (by decide) (by decide)

/-! ### Filename synthesis and per-document processing -/

/-- C9: filename synthesis is deterministic and follows the pattern
`sanitize(vendor)-YYYYMMDD-item_count-sanitize(category)-amount-vat.pdf`;
on the spec's concrete example it yields exactly
`Amazon-20240305-3-books-42.50-2.10.pdf` (amounts are modelled as
rationals, `42.5 = 85/2` and `2.1 = 21/10`), and vendor and category keep
their original casing (they go through the sanitizer, not the
canonical-key derivation). -/
theorem to_filename_deterministic :
    InvoiceDetails.to_filename
        ⟨pyStr "Amazon", ⟨2024, 3, 5⟩, 3, pyStr "books", mkRat 85 2, mkRat 21 10⟩
      = pyStr "Amazon-20240305-3-books-42.50-2.10.pdf" ∧
    (∀ d : InvoiceDetails, d.to_filename
        = sanitize_filename_part d.vendor ++ [45] ++ fmtYmd d.invoice_date ++ [45]
          ++ intToDigits d.item_count ++ [45]
          ++ sanitize_filename_part d.item_category ++ [45]
          ++ fmt2 d.total_amount ++ [45] ++ fmt2 d.total_vat ++ pyStr ".pdf") ∧
    InvoiceDetails.to_filename
        ⟨pyStr "AmAzOn", ⟨2024, 3, 5⟩, 3, pyStr "bOOks", mkRat 85 2, mkRat 21 10⟩
      = pyStr "AmAzOn-20240305-3-bOOks-42.50-2.10.pdf" ∧
    (∀ d₁ d₂ : InvoiceDetails, d₁ = d₂ → d₁.to_filename = d₂.to_filename) := by
  refine ⟨by decide, fun d => rfl, by decide, fun d₁ d₂ h => by rw [h]⟩

/-- C9 witness: determinism discharged at a concrete input. -/
theorem to_filename_deterministic_witness :
    InvoiceDetails.to_filename
        ⟨pyStr "Amazon", ⟨2024, 3, 5⟩, 3, pyStr "books", mkRat 85 2, mkRat 21 10⟩
      = InvoiceDetails.to_filename
        ⟨pyStr "Amazon", ⟨2024, 3, 5⟩, 3, pyStr "books", mkRat 85 2, mkRat 21 10⟩ :=
  to_filename_deterministic.2.2.2 _ _ rfl

/-- A failed document is exactly one with no text, a missing inference
payload, or a failing placement; the result is `none`, never an
exception (the model is a total function). -/
theorem process_single_none_iff (ov : Option PyStr) (env : DocEnv) :
    (process_single_invoice ov env).1 = none ↔ docFails env := by
  unfold process_single_invoice docFails
  by_cases ht : extractedText env = []
  · simp [ht]
  · rw [if_neg ht]
    rcases hn : env.normalizedResult with _ | nres
    · simp [hn, ht]
    · rcases hr : env.rawResult with _ | rres
      · simp [hn, hr, ht]
      · by_cases hp : env.placementFails = true
        · simp [hn, hr, ht, hp]
        · simp [hn, hr, ht, hp]

/-- C2: the batch coordinator returns exactly one result per input, in
input order; a failed document is an absent (`none`) result rather than a
raised error; and one document's environment (including one that raises)
never affects a sibling's result. -/
theorem batch_results (ov : Option PyStr) (envs : List DocEnv) :
    (process_multiple_invoices ov envs).length = envs.length ∧
    (∀ (i : Nat) (env : DocEnv), envs[i]? = some env →
      (process_multiple_invoices ov envs)[i]?
        = some (process_single_invoice ov env).1) ∧
    (∀ env : DocEnv, ((process_single_invoice ov env).1 = none ↔ docFails env)) ∧
    (∀ (i j : Nat) (e' : DocEnv), j ≠ i →
      (process_multiple_invoices ov (envs.set j e'))[i]?
        = (process_multiple_invoices ov envs)[i]?) := by
  refine ⟨by simp [process_multiple_invoices], ?_, process_single_none_iff ov, ?_⟩
  · intro i env h
    unfold process_multiple_invoices
    rw [List.getElem?_map, h]
    rfl
  · intro i j e' hji
    unfold process_multiple_invoices
    rw [List.getElem?_map, List.getElem?_map, List.getElem?_set_ne hji]

/-- C2 witness: a two-document batch where changing document 1 leaves
document 0's result untouched. -/
theorem batch_results_witness :
    (process_multiple_invoices none
        [⟨some (pyStr "inv"), none, none, false⟩,
          ⟨some (pyStr "inv"), none, none, false⟩])[0]?
      = some (process_single_invoice none ⟨some (pyStr "inv"), none, none, false⟩).1 ∧
    (process_multiple_invoices none
        ([⟨some (pyStr "inv"), none, none, false⟩,
          ⟨some (pyStr "inv"), none, none, false⟩].set 1
            ⟨none, none, none, true⟩))[0]?
      = (process_multiple_invoices none
        [⟨some (pyStr "inv"), none, none, false⟩,
          ⟨some (pyStr "inv"), none, none, false⟩])[0]? :=
  ⟨(batch_results none _).2.1 0 _ rfl,
    (batch_results none _).2.2.2 0 1 _ (by decide)⟩

/-- C4 counterexample: a document whose extracted text is whitespace-only
(a single space) is *not* treated as failed — Python's `if not
text_content:` is false for `" "`, so both inference calls are issued,
the registry is reconciled, and a file is placed. -/
theorem whitespace_text_counterexample :
    (process_single_invoice none
        ⟨some [32],
          some ⟨pyStr "Vendor", ⟨2024, 1, 2⟩, 1, pyStr "misc", mkRat 5 1, mkRat 0 1⟩,
          some ⟨pyStr "Vendor GmbH"⟩, false⟩).1 ≠ none ∧
    (process_single_invoice none
        ⟨some [32],
          some ⟨pyStr "Vendor", ⟨2024, 1, 2⟩, 1, pyStr "misc", mkRat 5 1, mkRat 0 1⟩,
          some ⟨pyStr "Vendor GmbH"⟩, false⟩).2.inferenceCalls = 2 ∧
    (process_single_invoice none
        ⟨some [32],
          some ⟨pyStr "Vendor", ⟨2024, 1, 2⟩, 1, pyStr "misc", mkRat 5 1, mkRat 0 1⟩,
          some ⟨pyStr "Vendor GmbH"⟩, false⟩).2.reconcileArgs ≠ [] := by
  refine ⟨by decide, by decide, by decide⟩

/-- C4 (amended): only *empty* extracted text is treated as failure:
the document then yields `None` with no inference calls, no registry
reconciliation, and no file placement; any extraction error is treated as
empty text.  Whitespace-only but non-empty text proceeds to inference. -/
theorem empty_text_fails_fast (ov : Option PyStr) (env : DocEnv) :
    (env.extraction = none → extractedText env = []) ∧
    (extractedText env = [] →
      process_single_invoice ov env = (none, ⟨0, [], []⟩)) := by
  constructor
  · intro h
    unfold extractedText
    rw [h]
  · intro h
    unfold process_single_invoice
    rw [if_pos h]

/-- C4 witness: a document whose extraction raises is failed with no
side effects. -/
theorem empty_text_fails_fast_witness :
    extractedText ⟨none, none, none, false⟩ = [] ∧
      process_single_invoice none ⟨none, none, none, false⟩ = (none, ⟨0, [], []⟩) :=
  ⟨(empty_text_fails_fast none ⟨none, none, none, false⟩).1 rfl,
    (empty_text_fails_fast none ⟨none, none, none, false⟩).2 rfl⟩

/-- C8: with an operator vendor override configured and both inference
calls succeeding, the override becomes the canonical candidate: the net
registry transformation equals two reconciliation calls — the AI-detected
normalized vendor as raw name with the override as normalized name, then
the verbatim vendor as raw name with the override as normalized name (the
code skips the second call only when its arguments equal the first
call's, where it is a no-op by idempotence) — and the synthesized
filename uses the sanitized override as its vendor part. -/
theorem vendor_override_semantics (o : PyStr) (env : DocEnv)
    (nres : InvoiceDetails) (rres : RawVendor)
    (hn : env.normalizedResult = some nres) (hr : env.rawResult = some rres)
    (ht : extractedText env ≠ []) :
    (∀ reg : Registry,
      applyReconcileArgs (process_single_invoice (some o) env).2.reconcileArgs reg
        = (add_or_update_vendor_alias
            (add_or_update_vendor_alias reg nres.vendor o).1
            rres.verbatim_vendor_name o).1) ∧
    (env.placementFails = false →
      (process_single_invoice (some o) env).1
        = some (InvoiceDetails.to_filename { nres with vendor := o })) ∧
    InvoiceDetails.to_filename { nres with vendor := o }
      = sanitize_filename_part o ++ [45] ++ fmtYmd nres.invoice_date ++ [45]
        ++ intToDigits nres.item_count ++ [45]
        ++ sanitize_filename_part nres.item_category ++ [45]
        ++ fmt2 nres.total_amount ++ [45] ++ fmt2 nres.total_vat ++ pyStr ".pdf" := by
  have hops : (process_single_invoice (some o) env).2.reconcileArgs
      = (nres.vendor, o) ::
        (if rres.verbatim_vendor_name ≠ nres.vendor
         then [(rres.verbatim_vendor_name, o)] else []) := by
    unfold process_single_invoice
    rw [if_neg ht]
    simp only [hn, hr]
    by_cases hp : env.placementFails = true <;> simp [hp]
  refine ⟨?_, ?_, rfl⟩
  · intro reg
    rw [hops]
    by_cases hv : rres.verbatim_vendor_name = nres.vendor
    · rw [if_neg (by simp [hv]), hv]
      unfold applyReconcileArgs add_or_update_vendor_alias
      simp only [List.foldl_cons, List.foldl_nil]
      exact (congrArg Prod.fst (addAliasAux_idem nres.vendor (canonicalKey o) reg)).symm
    · rw [if_pos hv]
      unfold applyReconcileArgs
      simp only [List.foldl_cons, List.foldl_nil]
  · intro hp
    unfold process_single_invoice
    rw [if_neg ht]
    simp only [hn, hr, hp]
    simp

/-- C8 witness: override semantics at a concrete document. -/
theorem vendor_override_semantics_witness :
    applyReconcileArgs (process_single_invoice (some (pyStr "ACME"))
        ⟨some (pyStr "txt"),
          some ⟨pyStr "Acme Corp", ⟨2024, 1, 2⟩, 1, pyStr "misc", mkRat 5 1, mkRat 0 1⟩,
          some ⟨pyStr "ACME Corporation"⟩, false⟩).2.reconcileArgs []
      = (add_or_update_vendor_alias
          (add_or_update_vendor_alias [] (pyStr "Acme Corp") (pyStr "ACME")).1
          (pyStr "ACME Corporation") (pyStr "ACME")).1 ∧
    (process_single_invoice (some (pyStr "ACME"))
        ⟨some (pyStr "txt"),
          some ⟨pyStr "Acme Corp", ⟨2024, 1, 2⟩, 1, pyStr "misc", mkRat 5 1, mkRat 0 1⟩,
          some ⟨pyStr "ACME Corporation"⟩, false⟩).1
      = some (InvoiceDetails.to_filename
          { (⟨pyStr "Acme Corp", ⟨2024, 1, 2⟩, 1, pyStr "misc", mkRat 5 1, mkRat 0 1⟩
              : InvoiceDetails) with vendor := pyStr "ACME" }) :=
  ⟨(vendor_override_semantics (pyStr "ACME") _ _ _ rfl rfl (by decide)).1 [],
    (vendor_override_semantics (pyStr "ACME") _ _ _ rfl rfl (by decide)).2.1 rfl⟩

/-! ### Concurrency: the mutex-guarded registry cycle -/

theorem sysStep_inv {raws : List PyStr} {norm : PyStr} {s s' : SysState}
    (hstep : SysStep raws norm s s') (hinv : SysInv raws norm s) :
    SysInv raws norm s' := by
  obtain ⟨hlen, hlock, hload, hdone⟩ := hinv
  cases hstep with
  | acquire i d _ hd hpc hfree =>
    refine ⟨by simpa using hlen, ?_, ?_, ?_⟩
    · intro j d' hd' hmid
      by_cases hji : j = i
      · subst hji
        rfl
      · rw [List.getElem?_set_ne (fun h => hji h.symm)] at hd'
        have hcontra := hlock j d' hd' hmid
        rw [hfree] at hcontra
        simp at hcontra
    · intro j d' hd' hpc'
      by_cases hji : j = i
      · subst hji
        obtain ⟨hlt, _⟩ := List.getElem?_eq_some_iff.mp hd
        rw [List.getElem?_set_self hlt] at hd'
        obtain rfl := Option.some.inj hd'
        simp at hpc'
      · rw [List.getElem?_set_ne (fun h => hji h.symm)] at hd'
        exact hload j d' hd' hpc'
    · intro j d' hd' hpc' r hrj hrne
      by_cases hji : j = i
      · subst hji
        obtain ⟨hlt, _⟩ := List.getElem?_eq_some_iff.mp hd
        rw [List.getElem?_set_self hlt] at hd'
        obtain rfl := Option.some.inj hd'
        simp at hpc'
      · rw [List.getElem?_set_ne (fun h => hji h.symm)] at hd'
        exact hdone j d' hd' hpc' r hrj hrne
  | load i d _ hd hpc =>
    refine ⟨by simpa using hlen, ?_, ?_, ?_⟩
    · intro j d' hd' hmid
      by_cases hji : j = i
      · subst hji
        exact hlock j d hd (Or.inl hpc)
      · rw [List.getElem?_set_ne (fun h => hji h.symm)] at hd'
        exact hlock j d' hd' hmid
    · intro j d' hd' hpc'
      by_cases hji : j = i
      · subst hji
        obtain ⟨hlt, _⟩ := List.getElem?_eq_some_iff.mp hd
        rw [List.getElem?_set_self hlt] at hd'
        obtain rfl := Option.some.inj hd'
        rfl
      · rw [List.getElem?_set_ne (fun h => hji h.symm)] at hd'
        exact hload j d' hd' hpc'
    · intro j d' hd' hpc' r hrj hrne
      by_cases hji : j = i
      · subst hji
        obtain ⟨hlt, _⟩ := List.getElem?_eq_some_iff.mp hd
        rw [List.getElem?_set_self hlt] at hd'
        obtain rfl := Option.some.inj hd'
        simp at hpc'
      · rw [List.getElem?_set_ne (fun h => hji h.symm)] at hd'
        exact hdone j d' hd' hpc' r hrj hrne
  | saveRelease i d r0 _ hd hpc hr0 =>
    refine ⟨by simpa using hlen, ?_, ?_, ?_⟩
    · intro j d' hd' hmid
      by_cases hji : j = i
      · subst hji
        obtain ⟨hlt, _⟩ := List.getElem?_eq_some_iff.mp hd
        rw [List.getElem?_set_self hlt] at hd'
        obtain rfl := Option.some.inj hd'
        rcases hmid with h | h <;> simp at h
      · rw [List.getElem?_set_ne (fun h => hji h.symm)] at hd'
        have h1 := hlock j d' hd' hmid
        have h2 := hlock i d hd (Or.inr hpc)
        rw [h2] at h1
        exact absurd (Option.some.inj h1).symm hji
    · intro j d' hd' hpc'
      by_cases hji : j = i
      · subst hji
        obtain ⟨hlt, _⟩ := List.getElem?_eq_some_iff.mp hd
        rw [List.getElem?_set_self hlt] at hd'
        obtain rfl := Option.some.inj hd'
        simp at hpc'
      · rw [List.getElem?_set_ne (fun h => hji h.symm)] at hd'
        have h1 := hlock j d' hd' (Or.inr hpc')
        have h2 := hlock i d hd (Or.inr hpc)
        rw [h2] at h1
        exact absurd (Option.some.inj h1).symm hji
    · intro j d' hd' hpc' r hrj hrne
      by_cases hji : j = i
      · subst hji
        obtain ⟨hlt, _⟩ := List.getElem?_eq_some_iff.mp hd
        rw [List.getElem?_set_self hlt] at hd'
        obtain rfl := Option.some.inj hd'
        rw [hr0] at hrj
        obtain rfl := Option.some.inj hrj
        unfold add_or_update_vendor_alias
        exact aliasPresent_add_self _ _ _ hrne
      · rw [List.getElem?_set_ne (fun h => hji h.symm)] at hd'
        have hpres := hdone j d' hd' hpc' r hrj hrne
        have hloc := hload i d hd hpc
        rw [← hloc] at hpres
        unfold add_or_update_vendor_alias
        exact aliasPresent_mono _ _ _ _ _ hpres

theorem sysReach_inv {raws : List PyStr} {norm : PyStr} {s0 s : SysState}
    (hinv : SysInv raws norm s0) (h : SysReach raws norm s0 s) :
    SysInv raws norm s := by
  unfold SysReach at h
  induction h with
  | refl => exact hinv
  | tail _ hstep ih => exact sysStep_inv hstep ih

theorem sysInv_init (raws : List PyStr) (norm : PyStr) (reg0 : Registry) :
    SysInv raws norm (initState raws reg0) := by
  have hidle : ∀ (i : Nat) (d : DocState),
      (initState raws reg0).docs[i]? = some d → d.pc = .idle := by
    intro i d hd
    simp only [initState, List.getElem?_map] at hd
    rcases hri : raws[i]? with _ | r
    · rw [hri] at hd
      simp at hd
    · rw [hri] at hd
      have hsome : some (⟨.idle, []⟩ : DocState) = some d := hd
      obtain rfl := Option.some.inj hsome
      rfl
  refine ⟨by simp [initState], ?_, ?_, ?_⟩
  · intro i d hd hmid
    have hpc := hidle i d hd
    rcases hmid with h | h <;> rw [hpc] at h <;> exact absurd h (by decide)
  · intro i d hd hpc'
    rw [hidle i d hd] at hpc'
    exact absurd hpc' (by decide)
  · intro i d hd hpc'
    rw [hidle i d hd] at hpc'
    exact absurd hpc' (by decide)

/-- C3: in the lock model of `_update_vendor_config` — where
`async with context.lock:` encloses load, reconcile, and save, so a
document acquires the lock before loading and releases it only after
persisting — any interleaving keeps at most one document inside its
registry read-modify-write cycle at a time, and when all of N concurrent
documents (each adding a distinct new alias of the same vendor) have
finished, every alias is present in the final persisted registry: no
update is lost. -/
theorem mutex_no_lost_updates (raws : List PyStr) (norm : PyStr) (reg0 : Registry)
    (s : SysState)
    (hdist : (raws.map lowerStr).Nodup)
    (hnew : ∀ r ∈ raws, lowerStr r ≠ lowerStr (canonicalKey norm))
    (hreach : SysReach raws norm (initState raws reg0) s) :
    (∀ (i j : Nat) (di dj : DocState), s.docs[i]? = some di → s.docs[j]? = some dj →
      di.midCycle → dj.midCycle → i = j) ∧
    ((∀ (i : Nat) (d : DocState), s.docs[i]? = some d → d.pc = .done) →
      ∀ r ∈ raws, aliasPresent r (canonicalKey norm) s.disk) := by
  obtain ⟨hlen, hlock, hload, hdone⟩ := sysReach_inv (sysInv_init raws norm reg0) hreach
  constructor
  · intro i j di dj hdi hdj hmi hmj
    have h1 := hlock i di hdi hmi
    have h2 := hlock j dj hdj hmj
    rw [h1] at h2
    exact Option.some.inj h2
  · intro hall r hr
    obtain ⟨i, hi⟩ := List.mem_iff_getElem?.mp hr
    obtain ⟨hlt, _⟩ := List.getElem?_eq_some_iff.mp hi
    have hltd : i < s.docs.length := by
      rw [hlen]
      exact hlt
    have hdd : s.docs[i]? = some s.docs[i] := List.getElem?_eq_getElem hltd
    exact hdone i _ hdd (hall i _ hdd) r hi (hnew r hr)

/-- C3 witness: a concrete complete execution — one document acquires the
lock, loads the empty registry, reconciles `"amzn"` against `"Amazon"`,
persists and releases — after which the alias is present in the persisted
registry. -/
theorem mutex_no_lost_updates_witness :
    aliasPresent (pyStr "amzn") (canonicalKey (pyStr "Amazon"))
      (add_or_update_vendor_alias [] (pyStr "amzn") (pyStr "Amazon")).1 := by
  have hreach : SysReach [pyStr "amzn"] (pyStr "Amazon")
      (initState [pyStr "amzn"] [])
      ⟨(add_or_update_vendor_alias [] (pyStr "amzn") (pyStr "Amazon")).1, none,
        [⟨.done, []⟩]⟩ := by
    have h1 : SysStep [pyStr "amzn"] (pyStr "Amazon")
        (initState [pyStr "amzn"] []) ⟨[], some 0, [⟨.locked, []⟩]⟩ :=
      SysStep.acquire 0 ⟨.idle, []⟩ _ rfl rfl rfl
    have h2 : SysStep [pyStr "amzn"] (pyStr "Amazon")
        ⟨[], some 0, [⟨.locked, []⟩]⟩ ⟨[], some 0, [⟨.loaded, []⟩]⟩ :=
      SysStep.load 0 ⟨.locked, []⟩ _ rfl rfl
    have h3 : SysStep [pyStr "amzn"] (pyStr "Amazon")
        ⟨[], some 0, [⟨.loaded, []⟩]⟩
        ⟨(add_or_update_vendor_alias [] (pyStr "amzn") (pyStr "Amazon")).1, none,
          [⟨.done, []⟩]⟩ :=
      SysStep.saveRelease 0 ⟨.loaded, []⟩ (pyStr "amzn") _ rfl rfl rfl
    exact Relation.ReflTransGen.tail
      (Relation.ReflTransGen.tail (Relation.ReflTransGen.single h1) h2) h3
  have hall : ∀ (i : Nat) (d : DocState),
      (⟨(add_or_update_vendor_alias [] (pyStr "amzn") (pyStr "Amazon")).1, none,
        [⟨.done, []⟩]⟩ : SysState).docs[i]? = some d → d.pc = .done := by
    intro i d hd
    match i, hd with
    | 0, hd =>
      obtain rfl := Option.some.inj hd
      rfl
    | n + 1, hd => simp at hd
  exact (mutex_no_lost_updates [pyStr "amzn"] (pyStr "Amazon") [] _
      (by decide) (by decide) hreach).2 hall (pyStr "amzn") (by decide)

end InvoiceProc
